import Mathlib

/-!
Verification of the tree/selection core of a terminal outline editor
(`src/main.rs`).  The program state is a forest of named nodes plus an
optional selection given as a path of zero-based child indices, and an
optional previously-pressed key used for the two-key "go to first" chord.
The definitions below are a shallow embedding of the Rust source:
`Node`, `App`, `App::add_child`, `App::get_node_mut`,
`App::get_parent_children_mut`, the key dispatch in `run`, and
`build_tree_lines`.
-/

/-- `struct Node { name: String, children: Vec<Node> }`. -/
inductive Node where
  | mk (name : String) (children : List Node)

def Node.name : Node → String
  | .mk n _ => n

def Node.children : Node → List Node
  | .mk _ c => c

/-- `Node::new(name)`: a fresh childless node. -/
def Node.new (name : String) : Node := Node.mk name []

/-- Key codes as far as the dispatch distinguishes them: a printable
character or anything else (`KeyCode::Char(c)` vs the other variants). -/
inductive KeyCode where
  | char (c : Char)
  | other
deriving DecidableEq

/-- `enum AppMode { Tree }`. -/
inductive AppMode where
  | tree
deriving DecidableEq

/-- `struct App { tree, selected, mode, prev_key_code }`. -/
structure App where
  tree : List Node
  selected : Option (List Nat)
  mode : AppMode
  prevKey : Option KeyCode

/-- `App::new()`: empty tree, no selection, tree mode, no pending key. -/
def App.init : App := ⟨[], none, AppMode.tree, none⟩

/-- `App::get_node_mut(path)` read-only shadow: resolve a path of child
indices to the node it denotes.  The empty path denotes no node (the Rust
loop body never runs and the function returns `None`). -/
def getNode : List Node → List Nat → Option Node
  | _, [] => none
  | nodes, [i] => nodes[i]?
  | nodes, i :: rest =>
    match nodes[i]? with
    | some n => getNode n.children rest
    | none => none

/-- `App::get_parent_children_mut(path)` read-only shadow: descend through
every index of `path` and return the final children list (the whole root
list for the empty path). -/
def getParentChildren : List Node → List Nat → Option (List Node)
  | nodes, [] => some nodes
  | nodes, i :: rest =>
    match nodes[i]? with
    | some n => getParentChildren n.children rest
    | none => none

/-- Replace the `i`-th element of a list by `f` of it; out of range leaves
the list unchanged (mirror of `Vec::get_mut` followed by a write). -/
def modifyList (f : Node → Node) : Nat → List Node → List Node
  | _, [] => []
  | 0, n :: ns => f n :: ns
  | i + 1, n :: ns => n :: modifyList f i ns

/-- Apply `f` to the node at a (non-empty) path, leaving everything else in
place; an unresolvable path leaves the forest unchanged.  This is the
functional rendering of mutating through `get_node_mut`. -/
def modifyAt (f : Node → Node) : List Nat → List Node → List Node
  | [], nodes => nodes
  | [i], nodes => modifyList f i nodes
  | i :: rest, nodes =>
    modifyList (fun n => Node.mk n.name (modifyAt f rest n.children)) i nodes

/-- `App::add_child`: push a fresh `"new node"` onto the selected node's
children (or onto the root list when nothing is selected) and select it. -/
def addChild (app : App) : App :=
  let newNode := Node.new "new node"
  match app.selected with
  | some selectedPath =>
    match getNode app.tree selectedPath with
    | some selectedNode =>
      { app with
        tree := modifyAt
          (fun n => Node.mk n.name (n.children ++ [newNode])) selectedPath app.tree,
        selected := some (selectedPath ++ [selectedNode.children.length]) }
    | none => app
  | none =>
    { app with
      tree := app.tree ++ [newNode],
      selected := some [app.tree.length] }

/-- The `'j'` handler: move the selection to the next index inside its
sibling group when that index exists. -/
def moveDown (app : App) : App :=
  match app.selected with
  | none => app
  | some sel =>
    if sel.isEmpty then app
    else
      match getParentChildren app.tree sel.dropLast with
      | none => app
      | some parentNodes =>
        match sel.getLast? with
        | none => app
        | some currentIndex =>
          if currentIndex < parentNodes.length - 1 then
            { app with selected := some (sel.dropLast ++ [currentIndex + 1]) }
          else app

/-- The `'k'` handler: move the selection to the previous index inside its
sibling group when the current index is positive. -/
def moveUp (app : App) : App :=
  match app.selected with
  | none => app
  | some sel =>
    match sel.getLast? with
    | none => app
    | some currentIndex =>
      if currentIndex > 0 then
        { app with selected := some (sel.dropLast ++ [currentIndex - 1]) }
      else app

/-- The descent of the `'G'` handler: starting from the whole root list,
keep pushing the last index and entering that node's children until the
current list is empty.  Yields `[]` exactly on an empty forest. -/
def lastPath (nodes : List Node) : List Nat :=
  match h : nodes.getLast? with
  | none => []
  | some n => (nodes.length - 1) :: lastPath n.children
termination_by sizeOf nodes
decreasing_by
  obtain ⟨hne, heq⟩ := List.mem_getLast?_eq_getLast (show n ∈ nodes.getLast? from h)
  have h1 : sizeOf n < sizeOf nodes := by
    have hm := List.getLast_mem hne
    rw [← heq] at hm
    exact List.sizeOf_lt_of_mem hm
  have h2 : sizeOf n.children < sizeOf n := by
    cases n with
    | mk nm cs => simp only [Node.children, Node.mk.sizeOf_spec]; omega
  omega

/-- One key press in tree mode: `prev_key_code` is taken first, then the
key dispatch of `run` fires. -/
def stepKey (key : KeyCode) (app : App) : App :=
  let prev := app.prevKey
  let app := { app with prevKey := none }
  match key with
  | .char c =>
    if c = 'q' then app
    else if c = 'A' then addChild app
    else if c = 'j' then moveDown app
    else if c = 'k' then moveUp app
    else if c = 'g' then
      if prev = some (KeyCode.char 'g') then
        if app.tree.isEmpty then app
        else { app with selected := some [0] }
      else { app with prevKey := some key }
    else if c = 'G' then
      let path := lastPath app.tree
      if path.isEmpty then app
      else { app with selected := some path }
    else app
  | .other => app

/-- The states reachable from `App.init` by key presses. -/
inductive Reachable : App → Prop
  | init : Reachable App.init
  | step : ∀ {app : App}, Reachable app → ∀ k, Reachable (stepKey k app)

/-- The selection, when present, is a non-empty path resolving to a node. -/
def validSelB (app : App) : Bool :=
  match app.selected with
  | none => true
  | some p => !p.isEmpty && (getNode app.tree p).isSome

/-- `build_tree_lines`: walk the forest with `enumerate`, emitting per node
its indent depth (`path.len()`), name and selected flag, then the lines of
its children (when any), then the remaining siblings.  `path` is the path
of the enclosing node and `i` the index of the first node of `nodes` in its
sibling group. -/
def buildTreeLines (selected : Option (List Nat)) :
    List Node → List Nat → Nat → List (Nat × String × Bool)
  | [], _, _ => []
  | n :: ns, path, i =>
    let currentPath := path ++ [i]
    let isSel := match selected with
      | some s => decide (s = currentPath)
      | none => false
    ((path.length, n.name, isSel) ::
      (if n.children.isEmpty then []
       else buildTreeLines selected n.children currentPath 0)) ++
      buildTreeLines selected ns path (i + 1)
termination_by nodes _ _ => sizeOf nodes
decreasing_by
  · simp only [List.cons.sizeOf_spec]
    have : sizeOf n.children < sizeOf n := by
      cases n with
      | mk nm cs => simp only [Node.children, Node.mk.sizeOf_spec]; omega
    omega
  · simp only [List.cons.sizeOf_spec]; omega

/-- Depth-first pre-order traversal with depths, following the claim text
for `traverse_visible`: each node before its children, children in sibling
order, depth equal to the path length from the root. -/
def preorderSpec : List Node → Nat → List (Nat × String)
  | [], _ => []
  | n :: ns, d => (d, n.name) :: (preorderSpec n.children (d + 1) ++ preorderSpec ns d)
termination_by nodes _ => sizeOf nodes
decreasing_by
  · simp only [List.cons.sizeOf_spec]
    have : sizeOf n.children < sizeOf n := by
      cases n with
      | mk nm cs => simp only [Node.children, Node.mk.sizeOf_spec]; omega
    omega
  · simp only [List.cons.sizeOf_spec]; omega

/-- Following the claim text for select-last: starting from a node,
repeatedly descend into the last child until a node with no children is
reached. -/
def descendLastSpec (n : Node) : Node :=
  match h : n.children.getLast? with
  | none => n
  | some c => descendLastSpec c
termination_by sizeOf n
decreasing_by
  obtain ⟨hne, heq⟩ :=
    List.mem_getLast?_eq_getLast (show c ∈ n.children.getLast? from h)
  have h1 : sizeOf c < sizeOf n.children := by
    have hm := List.getLast_mem hne
    rw [← heq] at hm
    exact List.sizeOf_lt_of_mem hm
  have h2 : sizeOf n.children < sizeOf n := by
    cases n with
    | mk nm cs => simp only [Node.children, Node.mk.sizeOf_spec]; omega
  omega

/-- `growsB t t'`: every node of `t` is still present in `t'` at the same
position with the same name; sibling lists may only have grown at their
ends.  This is the precise sense in which the command set keeps sibling
order, names, and membership of existing nodes. -/
def growsB : List Node → List Node → Bool
  | [], _ => true
  | _ :: _, [] => false
  | n :: ns, m :: ms => (n.name == m.name) && growsB n.children m.children && growsB ns ms
termination_by t _ => sizeOf t
decreasing_by
  · simp only [List.cons.sizeOf_spec]
    have : sizeOf n.children < sizeOf n := by
      cases n with
      | mk nm cs => simp only [Node.children, Node.mk.sizeOf_spec]; omega
    omega
  · simp only [List.cons.sizeOf_spec]; omega

/-- Total number of nodes in a forest. -/
def countNodes : List Node → Nat
  | [] => 0
  | n :: ns => 1 + countNodes n.children + countNodes ns
termination_by nodes => sizeOf nodes
decreasing_by
  · simp only [List.cons.sizeOf_spec]
    have : sizeOf n.children < sizeOf n := by
      cases n with
      | mk nm cs => simp only [Node.children, Node.mk.sizeOf_spec]; omega
    omega
  · simp only [List.cons.sizeOf_spec]; omega

/-- A Rust `usize` subtraction; `none` is the overflow panic. -/
def checkedSub (a b : Nat) : Option Nat := if b ≤ a then some (a - b) else none

/-- `App::add_child` with every potentially panicking step made explicit
(`none` = panic): the `len() - 1` computations run right after a `push`,
so the length is the successor of the old length. -/
def addChildChecked (app : App) : Option App :=
  let newNode := Node.new "new node"
  match app.selected with
  | some selectedPath =>
    match getNode app.tree selectedPath with
    | some selectedNode =>
      match checkedSub (selectedNode.children.length + 1) 1 with
      | none => none
      | some i =>
        some { app with
          tree := modifyAt
            (fun n => Node.mk n.name (n.children ++ [newNode])) selectedPath app.tree,
          selected := some (selectedPath ++ [i]) }
    | none => some app
  | none =>
    match checkedSub (app.tree.length + 1) 1 with
    | none => none
    | some i =>
      some { app with tree := app.tree ++ [newNode], selected := some [i] }

/-- The `'j'` handler with panics explicit: `selected.last().unwrap()` and
the `parent_nodes.len() - 1` subtraction are the fallible steps. -/
def moveDownChecked (app : App) : Option App :=
  match app.selected with
  | none => some app
  | some sel =>
    if sel.isEmpty then some app
    else
      match getParentChildren app.tree sel.dropLast with
      | none => some app
      | some parentNodes =>
        match sel.getLast? with
        | none => none
        | some currentIndex =>
          match checkedSub parentNodes.length 1 with
          | none => none
          | some lastIdx =>
            if currentIndex < lastIdx then
              some { app with selected := some (sel.dropLast ++ [currentIndex + 1]) }
            else some app

/-- The `'k'` handler with panics explicit: the `unwrap`s run behind an
`is_empty` test and the decrement behind a positivity test. -/
def moveUpChecked (app : App) : Option App :=
  match app.selected with
  | none => some app
  | some sel =>
    if sel.isEmpty then some app
    else
      match sel.getLast? with
      | none => none
      | some currentIndex =>
        if currentIndex > 0 then
          match checkedSub currentIndex 1 with
          | none => none
          | some i => some { app with selected := some (sel.dropLast ++ [i]) }
        else some app

/-- The `'G'` descent with panics explicit: the `len() - 1` subtraction and
the `current_nodes[last_index]` indexing are the fallible steps. -/
def lastPathChecked (nodes : List Node) : Option (List Nat) :=
  if nodes.isEmpty then some []
  else
    match checkedSub nodes.length 1 with
    | none => none
    | some lastIdx =>
      match hg : nodes[lastIdx]? with
      | none => none
      | some n => (lastPathChecked n.children).map (fun p => lastIdx :: p)
termination_by sizeOf nodes
decreasing_by
  have hmem : n ∈ nodes := by
    have := List.getElem?_eq_some_iff.mp hg
    obtain ⟨hlt, hEq⟩ := this
    exact hEq ▸ List.getElem_mem hlt
  have h1 : sizeOf n < sizeOf nodes := List.sizeOf_lt_of_mem hmem
  have h2 : sizeOf n.children < sizeOf n := by
    cases n with
    | mk nm cs => simp only [Node.children, Node.mk.sizeOf_spec]; omega
  omega

/-- One key press with every panic made explicit (`none` = panic). -/
def stepKeyChecked (key : KeyCode) (app : App) : Option App :=
  let prev := app.prevKey
  let app := { app with prevKey := none }
  match key with
  | .char c =>
    if c = 'q' then some app
    else if c = 'A' then addChildChecked app
    else if c = 'j' then moveDownChecked app
    else if c = 'k' then moveUpChecked app
    else if c = 'g' then
      if prev = some (KeyCode.char 'g') then
        if app.tree.isEmpty then some app
        else some { app with selected := some [0] }
      else some { app with prevKey := some key }
    else if c = 'G' then
      match lastPathChecked app.tree with
      | none => none
      | some path =>
        if path.isEmpty then some app
        else some { app with selected := some path }
    else some app
  | .other => some app

/-- Modelled from the spec: `add_sibling_of_selection` is described in §4.1
but absent from `src/main.rs` (no key in `run` invokes it).  Per the spec it
creates a new node with the same parent as the selection, appended at the
end of the parent's children (the root list when the selection is
top-level), and selects it; with no selection it behaves as adding a new
top-level root. -/
def addSibling (app : App) : App :=
  let newNode := Node.new "new node"
  match app.selected with
  | some sel =>
    match getParentChildren app.tree sel.dropLast with
    | some parentNodes =>
      let newTree :=
        if sel.dropLast.isEmpty then app.tree ++ [newNode]
        else modifyAt
          (fun n => Node.mk n.name (n.children ++ [newNode])) sel.dropLast app.tree
      { app with tree := newTree, selected := some (sel.dropLast ++ [parentNodes.length]) }
    | none => app
  | none =>
    { app with tree := app.tree ++ [newNode], selected := some [app.tree.length] }

@[simp] theorem Node.name_mk (s : String) (cs : List Node) : (Node.mk s cs).name = s := rfl

@[simp] theorem Node.children_mk (s : String) (cs : List Node) : (Node.mk s cs).children = cs := rfl

theorem length_modifyList (f : Node → Node) (i : Nat) (l : List Node) :
    (modifyList f i l).length = l.length := by
  induction l generalizing i with
  | nil => simp [modifyList]
  | cons n ns ih =>
    cases i with
    | zero => simp [modifyList]
    | succ j => simp [modifyList, ih]

theorem getElem?_modifyList (f : Node → Node) (i j : Nat) (l : List Node) :
    (modifyList f i l)[j]? = if i = j then (l[j]?).map f else l[j]? := by
  induction l generalizing i j with
  | nil => simp [modifyList]
  | cons n ns ih =>
    cases i with
    | zero =>
      cases j with
      | zero => simp [modifyList]
      | succ j' => simp [modifyList]
    | succ i' =>
      cases j with
      | zero => simp [modifyList]
      | succ j' => simp [modifyList, ih i' j']

theorem getParentChildren_map_children (p : List Nat) (nodes : List Node) (hp : p ≠ []) :
    getParentChildren nodes p = (getNode nodes p).map Node.children := by
  induction p generalizing nodes with
  | nil => exact absurd rfl hp
  | cons i rest ih =>
    cases rest with
    | nil =>
      cases h : nodes[i]? with
      | none => simp [getParentChildren, getNode, h]
      | some n => simp [getParentChildren, getNode, h]
    | cons j rest' =>
      cases h : nodes[i]? with
      | none => simp [getParentChildren, getNode, h]
      | some n =>
        simp only [getParentChildren, getNode, h]
        exact ih _ (by simp)

theorem getNode_concat (q : List Nat) (i : Nat) (nodes : List Node) :
    getNode nodes (q ++ [i]) = (getParentChildren nodes q).bind fun l => l[i]? := by
  induction q generalizing nodes with
  | nil => simp [getNode, getParentChildren]
  | cons j q' ih =>
    cases h : nodes[j]? with
    | none =>
      cases q' with
      | nil => simp [getNode, getParentChildren, h]
      | cons a b => simp [getNode, getParentChildren, h]
    | some n =>
      cases q' with
      | nil => simp [getNode, getParentChildren, h]
      | cons a b =>
        simp only [List.cons_append, getNode, getParentChildren, h]
        exact ih _

theorem getNode_modifyAt (f : Node → Node) (p : List Nat) (nodes : List Node) (n : Node)
    (h : getNode nodes p = some n) :
    getNode (modifyAt f p nodes) p = some (f n) := by
  induction p generalizing nodes n with
  | nil => simp [getNode] at h
  | cons i rest ih =>
    cases rest with
    | nil =>
      simp only [getNode] at h
      simp [modifyAt, getNode, getElem?_modifyList, h]
    | cons j rest' =>
      cases hm : nodes[i]? with
      | none =>
        simp only [getNode, hm] at h
        exact Option.noConfusion h
      | some m =>
        simp only [getNode, hm] at h
        simp only [modifyAt, getNode, getElem?_modifyList, hm, if_pos rfl, Option.map_some]
        simpa [Node.children] using ih _ _ h

theorem getParentChildren_modifyAt (f : Node → Node) (p : List Nat) (nodes : List Node)
    (n : Node) (h : getNode nodes p = some n) :
    getParentChildren (modifyAt f p nodes) p = some (f n).children := by
  have hp : p ≠ [] := by
    intro hnil
    rw [hnil] at h
    simp [getNode] at h
  rw [getParentChildren_map_children _ _ hp, getNode_modifyAt f p nodes n h]
  rfl

theorem countNodes_append (l1 l2 : List Node) :
    countNodes (l1 ++ l2) = countNodes l1 + countNodes l2 := by
  induction l1 with
  | nil => simp [countNodes]
  | cons n ns ih =>
    simp only [List.cons_append, countNodes, ih]
    omega

theorem countNodes_modifyList_delta (g : Node → Node) (d i : Nat) (l : List Node) (n : Node)
    (h : l[i]? = some n) (hg : countNodes [g n] = countNodes [n] + d) :
    countNodes (modifyList g i l) = countNodes l + d := by
  induction l generalizing i with
  | nil => simp at h
  | cons a as ih =>
    cases i with
    | zero =>
      simp only [List.getElem?_cons_zero, Option.some.injEq] at h
      subst h
      have h1 : countNodes (g a :: as) = countNodes [g a] + countNodes as := by
        simpa using countNodes_append [g a] as
      have h2 : countNodes (a :: as) = countNodes [a] + countNodes as := by
        simpa using countNodes_append [a] as
      simp only [modifyList]
      omega
    | succ i' =>
      simp only [List.getElem?_cons_succ] at h
      simp only [modifyList, countNodes, ih i' h]
      omega

theorem countNodes_modifyAt_append (x : Node) (p : List Nat) (nodes : List Node) (n : Node)
    (h : getNode nodes p = some n) :
    countNodes (modifyAt (fun m => Node.mk m.name (m.children ++ [x])) p nodes)
      = countNodes nodes + countNodes [x] := by
  induction p generalizing nodes n with
  | nil => simp [getNode] at h
  | cons i rest ih =>
    cases rest with
    | nil =>
      simp only [getNode] at h
      simp only [modifyAt]
      apply countNodes_modifyList_delta _ _ i nodes n h
      simp only [countNodes, Node.children, countNodes_append]
      omega
    | cons j rest' =>
      cases hm : nodes[i]? with
      | none =>
        simp only [getNode, hm] at h
        exact Option.noConfusion h
      | some m =>
        simp only [getNode, hm] at h
        simp only [modifyAt]
        apply countNodes_modifyList_delta _ _ i nodes m hm
        simp only [countNodes, Node.children_mk]
        rw [ih m.children n h]
        simp only [countNodes]
        omega

theorem growsB_refl : ∀ l : List Node, growsB l l = true
  | [] => by simp [growsB]
  | n :: ns => by
    have h1 := growsB_refl n.children
    have h2 := growsB_refl ns
    simp [growsB, h1, h2]
termination_by l => sizeOf l
decreasing_by
  · have : sizeOf n.children < sizeOf n := by
      cases n with
      | mk nm cs => simp only [Node.children, Node.mk.sizeOf_spec]; omega
    simp only [List.cons.sizeOf_spec]; omega
  · simp only [List.cons.sizeOf_spec]; omega

theorem growsB_concat (l m : List Node) : growsB l (l ++ m) = true := by
  induction l with
  | nil => simp [growsB]
  | cons n ns ih => simp [growsB, growsB_refl n.children, ih]

theorem growsB_modifyList (g : Node → Node) (i : Nat) (l : List Node)
    (hg : ∀ n, (g n).name = n.name ∧ growsB n.children (g n).children = true) :
    growsB l (modifyList g i l) = true := by
  induction l generalizing i with
  | nil => simp [modifyList, growsB]
  | cons a as ih =>
    cases i with
    | zero =>
      obtain ⟨h1, h2⟩ := hg a
      simp [modifyList, growsB, h1, h2, growsB_refl as]
    | succ i' =>
      simp [modifyList, growsB, growsB_refl a.children, ih i']

theorem growsB_modifyAt (f : Node → Node) (p : List Nat) (nodes : List Node)
    (hf : ∀ n, (f n).name = n.name ∧ growsB n.children (f n).children = true) :
    growsB nodes (modifyAt f p nodes) = true := by
  induction p generalizing nodes with
  | nil => simp [modifyAt, growsB_refl]
  | cons i rest ih =>
    cases rest with
    | nil => exact growsB_modifyList f i nodes hf
    | cons j rest' =>
      simp only [modifyAt]
      apply growsB_modifyList
      intro n
      exact ⟨by simp [Node.name], by simpa [Node.children] using ih n.children⟩

theorem lastPath_nil : lastPath ([] : List Node) = [] := by
  rw [lastPath.eq_def]
  simp

theorem lastPath_ne_nil (nodes : List Node) (h : nodes ≠ []) : lastPath nodes ≠ [] := by
  rw [lastPath.eq_def]
  cases hg : nodes.getLast? with
  | none => exact absurd (List.getLast?_eq_none_iff.mp hg) h
  | some n => simp [hg]

theorem lastPath_eq (nodes : List Node) (n : Node) (h : nodes.getLast? = some n) :
    lastPath nodes = (nodes.length - 1) :: lastPath n.children := by
  rw [lastPath.eq_def]
  split
  · rename_i heq
    rw [h] at heq
    exact Option.noConfusion heq
  · rename_i m heq
    rw [h] at heq
    injection heq with hmn
    subst hmn
    rfl

theorem descendLastSpec_leaf (n : Node) (h : n.children.getLast? = none) :
    descendLastSpec n = n := by
  rw [descendLastSpec.eq_def]
  split
  · rfl
  · rename_i c heq
    rw [h] at heq
    exact Option.noConfusion heq

theorem descendLastSpec_step (n c : Node) (h : n.children.getLast? = some c) :
    descendLastSpec n = descendLastSpec c := by
  rw [descendLastSpec.eq_def]
  split
  · rename_i heq
    rw [h] at heq
    exact Option.noConfusion heq
  · rename_i m heq
    rw [h] at heq
    injection heq with hmn
    subst hmn
    rfl

theorem getNode_lastPath : ∀ (nodes : List Node) (n : Node), nodes.getLast? = some n →
    getNode nodes (lastPath nodes) = some (descendLastSpec n) ∧
      (descendLastSpec n).children = []
  | nodes, n, h => by
    rw [lastPath_eq nodes n h]
    cases hc : n.children.getLast? with
    | none =>
      have hcnil : n.children = [] := List.getLast?_eq_none_iff.mp hc
      rw [descendLastSpec_leaf n hc]
      constructor
      · rw [show lastPath n.children = [] from by rw [hcnil]; exact lastPath_nil]
        simp only [getNode]
        rw [← List.getLast?_eq_getElem?]
        exact h
      · exact hcnil
    | some c =>
      have hcne : n.children ≠ [] := by
        intro hnil
        rw [hnil] at hc
        simp at hc
      have ih := getNode_lastPath n.children c hc
      rw [descendLastSpec_step n c hc]
      refine ⟨?_, ih.2⟩
      have hlp := lastPath_ne_nil n.children hcne
      cases hl : lastPath n.children with
      | nil => exact absurd hl hlp
      | cons a rest =>
        have hidx : nodes[nodes.length - 1]? = some n := by
          rw [← List.getLast?_eq_getElem?]
          exact h
        simp only [getNode, hidx]
        rw [← hl]
        exact ih.1
termination_by nodes _ _ => sizeOf nodes
decreasing_by
  obtain ⟨hne, heq⟩ := List.mem_getLast?_eq_getLast (show n ∈ nodes.getLast? from h)
  have h1 : sizeOf n < sizeOf nodes := by
    have hm := List.getLast_mem hne
    rw [← heq] at hm
    exact List.sizeOf_lt_of_mem hm
  have h2 : sizeOf n.children < sizeOf n := by
    cases n with
    | mk nm cs => simp only [Node.children, Node.mk.sizeOf_spec]; omega
  omega

theorem validSelB_some (app : App) (sel : List Nat) (h : validSelB app = true)
    (hs : app.selected = some sel) :
    sel ≠ [] ∧ (getNode app.tree sel).isSome = true := by
  simp only [validSelB, hs, Bool.and_eq_true, Bool.not_eq_true'] at h
  exact ⟨by simpa using h.1, h.2⟩

theorem validSelB_of_some (app' : App) (sel : List Nat) (hs : app'.selected = some sel)
    (h1 : sel ≠ []) (h2 : (getNode app'.tree sel).isSome = true) :
    validSelB app' = true := by
  simp only [validSelB, hs, Bool.and_eq_true, Bool.not_eq_true']
  exact ⟨by simpa using h1, h2⟩

theorem validSelB_of_none (app' : App) (hs : app'.selected = none) :
    validSelB app' = true := by
  simp only [validSelB, hs]

theorem validSelB_addChild (app : App) (h : validSelB app = true) :
    validSelB (addChild app) = true := by
  cases hs : app.selected with
  | none =>
    have hsel : (addChild app).selected = some [app.tree.length] := by
      simp [addChild, hs]
    have htree : (addChild app).tree = app.tree ++ [Node.new "new node"] := by
      simp [addChild, hs]
    apply validSelB_of_some _ _ hsel (by simp)
    rw [htree]
    simp only [getNode]
    rw [List.getElem?_concat_length]
    rfl
  | some p =>
    obtain ⟨hne, hsome⟩ := validSelB_some app p h hs
    cases hn' : getNode app.tree p with
    | none =>
      rw [hn'] at hsome
      simp at hsome
    | some n =>
      have hsel : (addChild app).selected = some (p ++ [n.children.length]) := by
        simp [addChild, hs, hn']
      have htree : (addChild app).tree
          = modifyAt (fun m => Node.mk m.name (m.children ++ [Node.new "new node"]))
              p app.tree := by
        simp [addChild, hs, hn']
      apply validSelB_of_some _ _ hsel (by simp)
      rw [htree, getNode_concat, getParentChildren_modifyAt _ p app.tree n hn']
      simp [List.getElem?_concat_length]

theorem validSelB_moveDown (app : App) (h : validSelB app = true) :
    validSelB (moveDown app) = true := by
  cases hs : app.selected with
  | none =>
    have : moveDown app = app := by simp [moveDown, hs]
    rw [this]
    exact h
  | some sel =>
    obtain ⟨hne, hsome⟩ := validSelB_some app sel h hs
    have hempf : sel.isEmpty = false := by simpa using hne
    cases hpc : getParentChildren app.tree sel.dropLast with
    | none =>
      have : moveDown app = app := by simp [moveDown, hs, hempf, hpc]
      rw [this]
      exact h
    | some parentNodes =>
      cases hl : sel.getLast? with
      | none =>
        have : moveDown app = app := by simp [moveDown, hs, hempf, hpc, hl]
        rw [this]
        exact h
      | some ci =>
        by_cases hlt : ci < parentNodes.length - 1
        · have hsel : (moveDown app).selected = some (sel.dropLast ++ [ci + 1]) := by
            simp [moveDown, hs, hempf, hpc, hl, hlt]
          have htree : (moveDown app).tree = app.tree := by
            simp [moveDown, hs, hempf, hpc, hl, hlt]
          apply validSelB_of_some _ _ hsel (by simp)
          rw [htree, getNode_concat, hpc]
          have hci : ci + 1 < parentNodes.length := by omega
          simp [List.getElem?_eq_getElem hci]
        · have : moveDown app = app := by simp [moveDown, hs, hempf, hpc, hl, hlt]
          rw [this]
          exact h

theorem validSelB_moveUp (app : App) (h : validSelB app = true) :
    validSelB (moveUp app) = true := by
  cases hs : app.selected with
  | none =>
    have : moveUp app = app := by simp [moveUp, hs]
    rw [this]
    exact h
  | some sel =>
    obtain ⟨hne, hsome⟩ := validSelB_some app sel h hs
    cases hl : sel.getLast? with
    | none =>
      have : moveUp app = app := by simp [moveUp, hs, hl]
      rw [this]
      exact h
    | some ci =>
      by_cases hpos : ci > 0
      · have hsel : (moveUp app).selected = some (sel.dropLast ++ [ci - 1]) := by
          simp [moveUp, hs, hl, hpos]
        have htree : (moveUp app).tree = app.tree := by
          simp [moveUp, hs, hl, hpos]
        apply validSelB_of_some _ _ hsel (by simp)
        rw [htree, getNode_concat]
        have hsplit : sel.dropLast ++ [ci] = sel := List.dropLast_append_getLast? ci hl
        rw [← hsplit, getNode_concat] at hsome
        cases hpc : getParentChildren app.tree sel.dropLast with
        | none =>
          rw [hpc] at hsome
          simp at hsome
        | some l =>
          rw [hpc] at hsome
          simp only [Option.some_bind] at hsome ⊢
          have hci : ci < l.length := by
            by_contra hge
            rw [List.getElem?_eq_none (by omega)] at hsome
            simp at hsome
          have hci' : ci - 1 < l.length := by omega
          simp [List.getElem?_eq_getElem hci']
      · have : moveUp app = app := by simp [moveUp, hs, hl, hpos]
        rw [this]
        exact h

theorem validSelB_stepKey (k : KeyCode) (app : App) (h : validSelB app = true) :
    validSelB (stepKey k app) = true := by
  cases k with
  | other => exact h
  | char c =>
    simp only [stepKey]
    split_ifs with h1 h2 h3 h4 h5 h6 h7 h8 h9
    · exact h
    · exact validSelB_addChild _ h
    · exact validSelB_moveDown _ h
    · exact validSelB_moveUp _ h
    · exact h
    · apply validSelB_of_some _ [0] rfl (by simp)
      simp only [getNode]
      have hlen : 0 < app.tree.length := by
        rcases htr : app.tree with _ | ⟨a, as⟩
        · rw [htr] at h7
          simp at h7
        · simp
      simp [List.getElem?_eq_getElem hlen]
    · exact h
    · exact h
    · have htne : app.tree ≠ [] := by
        intro hnil
        rw [hnil, lastPath_nil] at h9
        simp at h9
      cases hg : app.tree.getLast? with
      | none => exact absurd (List.getLast?_eq_none_iff.mp hg) htne
      | some n =>
        apply validSelB_of_some _ _ rfl (by simpa using h9)
        rw [show ({ app with prevKey := none } : App).tree = app.tree from rfl]
        rw [(getNode_lastPath app.tree n hg).1]
        rfl
    · exact h

theorem stepKey_char_A (app : App) :
    stepKey (.char 'A') app = addChild { app with prevKey := none } := rfl

theorem stepKey_char_j (app : App) :
    stepKey (.char 'j') app = moveDown { app with prevKey := none } := rfl

theorem stepKey_char_k (app : App) :
    stepKey (.char 'k') app = moveUp { app with prevKey := none } := rfl

theorem moveDown_eq (app : App) (q : List Nat) (i : Nat) (l : List Node)
    (hs : app.selected = some (q ++ [i])) (hpc : getParentChildren app.tree q = some l) :
    moveDown app = if i < l.length - 1
      then { app with selected := some (q ++ [i + 1]) } else app := by
  have hemp : (q ++ [i]).isEmpty = false := by simp
  have hdl : (q ++ [i]).dropLast = q := List.dropLast_concat
  have hgl : (q ++ [i]).getLast? = some i := List.getLast?_concat q
  simp only [moveDown, hs, hemp, Bool.false_eq_true, if_false, hdl, hpc, hgl]

theorem moveUp_eq (app : App) (q : List Nat) (i : Nat)
    (hs : app.selected = some (q ++ [i])) :
    moveUp app = if 0 < i
      then { app with selected := some (q ++ [i - 1]) } else app := by
  have hdl : (q ++ [i]).dropLast = q := List.dropLast_concat
  have hgl : (q ++ [i]).getLast? = some i := List.getLast?_concat q
  simp only [moveUp, hs, hgl, hdl, gt_iff_lt]

/-- C1: Selection-validity invariant: in every state reachable from the
initial empty state by any sequence of key commands (add-child, move-down,
move-up, go-to-first chord, go-to-last), if the selection is `some path`
then `path` is a non-empty index sequence that resolves to an existing node
in the tree (this is what `validSelB` checks). -/
theorem selection_valid_of_reachable (app : App) (h : Reachable app) :
    validSelB app = true := by
  induction h with
  | init => rfl
  | step hr k ih => exact validSelB_stepKey k _ ih

/-- Witness for C1 at the concrete reachable state after pressing 'A' twice. -/
theorem selection_valid_of_reachable_witness :
    validSelB (stepKey (.char 'A') (stepKey (.char 'A') App.init)) = true ∧
      (stepKey (.char 'A') (stepKey (.char 'A') App.init)).selected = some [0, 0] :=
  ⟨selection_valid_of_reachable _ (Reachable.step (Reachable.step Reachable.init _) _), rfl⟩

/-- C2: `add_child_of_selection` always succeeds: when a (resolving)
selection exists it appends exactly one new node at the end of the selected
node's children; when no selection exists it appends exactly one new
top-level root (on an empty tree therefore exactly one top-level node); in
both cases the new node is the childless folder `"new node"` and becomes
the new selection, and the total node count grows by exactly one. -/
theorem addChild_spec (app : App) (h : validSelB app = true) :
    (∀ p n, app.selected = some p → getNode app.tree p = some n →
      getNode (addChild app).tree p
          = some (Node.mk n.name (n.children ++ [Node.new "new node"])) ∧
        (addChild app).selected = some (p ++ [n.children.length]) ∧
        getNode (addChild app).tree (p ++ [n.children.length])
          = some (Node.new "new node")) ∧
    (app.selected = none →
      (addChild app).tree = app.tree ++ [Node.new "new node"] ∧
        (addChild app).selected = some [app.tree.length] ∧
        getNode (addChild app).tree [app.tree.length] = some (Node.new "new node")) ∧
    countNodes (addChild app).tree = countNodes app.tree + 1 := by
  refine ⟨?_, ?_, ?_⟩
  · intro p n hp hn
    have htree : (addChild app).tree
        = modifyAt (fun m => Node.mk m.name (m.children ++ [Node.new "new node"]))
            p app.tree := by
      simp [addChild, hp, hn]
    have hsel : (addChild app).selected = some (p ++ [n.children.length]) := by
      simp [addChild, hp, hn]
    refine ⟨?_, hsel, ?_⟩
    · rw [htree]
      exact getNode_modifyAt _ p app.tree n hn
    · rw [htree, getNode_concat, getParentChildren_modifyAt _ p app.tree n hn]
      simp [List.getElem?_concat_length]
  · intro hp
    refine ⟨by simp [addChild, hp], by simp [addChild, hp], ?_⟩
    have htree : (addChild app).tree = app.tree ++ [Node.new "new node"] := by
      simp [addChild, hp]
    rw [htree]
    simp only [getNode]
    rw [List.getElem?_concat_length]
  · cases hs : app.selected with
    | none =>
      have htree : (addChild app).tree = app.tree ++ [Node.new "new node"] := by
        simp [addChild, hs]
      rw [htree, countNodes_append]
      simp [countNodes, Node.new]
    | some p =>
      obtain ⟨hne, hsome⟩ := validSelB_some app p h hs
      cases hn : getNode app.tree p with
      | none =>
        rw [hn] at hsome
        simp at hsome
      | some n =>
        have htree : (addChild app).tree
            = modifyAt (fun m => Node.mk m.name (m.children ++ [Node.new "new node"]))
                p app.tree := by
          simp [addChild, hs, hn]
        rw [htree, countNodes_modifyAt_append _ p app.tree n hn]
        simp [countNodes, Node.new]

/-- Witness for C2 at a one-node tree with that node selected. -/
theorem addChild_spec_witness :
    validSelB (⟨[Node.mk "root" []], some [0], AppMode.tree, none⟩ : App) = true ∧
    (addChild ⟨[Node.mk "root" []], some [0], AppMode.tree, none⟩).selected = some [0, 0] ∧
    getNode (addChild ⟨[Node.mk "root" []], some [0], AppMode.tree, none⟩).tree [0, 0]
      = some (Node.new "new node") :=
  ⟨rfl,
   ((addChild_spec ⟨[Node.mk "root" []], some [0], AppMode.tree, none⟩ rfl).1
      [0] (Node.mk "root" []) rfl rfl).2.1,
   ((addChild_spec ⟨[Node.mk "root" []], some [0], AppMode.tree, none⟩ rfl).1
      [0] (Node.mk "root" []) rfl rfl).2.2⟩

/-- C3: `move_selection_down` / `move_selection_up`: with a valid selection
whose last index is `i` inside sibling group `l`, move-down changes only the
last path index to `i+1` when `i` is not the last index of the group and is
a no-op (selection and tree unchanged) when it is; symmetrically move-up
changes it to `i-1` unless `i = 0`, where it is a no-op; with no selection
both are no-ops; there is no wraparound and no change of depth. -/
theorem moveDownUp_spec (app : App) (h : validSelB app = true) :
    (∀ q i l, app.selected = some (q ++ [i]) →
      getParentChildren app.tree q = some l →
      (stepKey (.char 'j') app).tree = app.tree ∧
      (if i + 1 < l.length
        then (stepKey (.char 'j') app).selected = some (q ++ [i + 1])
        else (stepKey (.char 'j') app).selected = app.selected) ∧
      (stepKey (.char 'k') app).tree = app.tree ∧
      (if 0 < i
        then (stepKey (.char 'k') app).selected = some (q ++ [i - 1])
        else (stepKey (.char 'k') app).selected = app.selected)) ∧
    (app.selected = none →
      stepKey (.char 'j') app = { app with prevKey := none } ∧
      stepKey (.char 'k') app = { app with prevKey := none }) := by
  refine ⟨?_, ?_⟩
  · intro q i l hs hpc
    have happ : ({ app with prevKey := none } : App).selected = some (q ++ [i]) := hs
    have hj := moveDown_eq { app with prevKey := none } q i l happ hpc
    have hk := moveUp_eq { app with prevKey := none } q i happ
    obtain ⟨hne, hsome⟩ := validSelB_some app _ h hs
    rw [getNode_concat, hpc] at hsome
    simp only [Option.some_bind] at hsome
    have hi : i < l.length := by
      cases hx : l[i]? with
      | none =>
        rw [hx] at hsome
        simp at hsome
      | some nd => exact (List.getElem?_eq_some_iff.mp hx).1
    refine ⟨?_, ?_, ?_, ?_⟩
    · rw [stepKey_char_j, hj]
      split <;> rfl
    · rw [stepKey_char_j, hj]
      by_cases hlt : i + 1 < l.length
      · rw [if_pos (show i < l.length - 1 by omega), if_pos hlt]
      · rw [if_neg (show ¬i < l.length - 1 by omega), if_neg hlt]
    · rw [stepKey_char_k, hk]
      split <;> rfl
    · rw [stepKey_char_k, hk]
      by_cases hpos : 0 < i
      · rw [if_pos hpos, if_pos hpos]
      · rw [if_neg hpos, if_neg hpos]
  · intro hs
    exact ⟨by rw [stepKey_char_j]; simp [moveDown, hs],
           by rw [stepKey_char_k]; simp [moveUp, hs]⟩

/-- Witness for C3 on a two-root tree with the first root selected. -/
theorem moveDownUp_spec_witness :
    validSelB (⟨[Node.mk "a" [], Node.mk "b" []], some [0], AppMode.tree, none⟩ : App) = true ∧
    (stepKey (.char 'j')
      ⟨[Node.mk "a" [], Node.mk "b" []], some [0], AppMode.tree, none⟩).selected = some [1] ∧
    (stepKey (.char 'k')
      ⟨[Node.mk "a" [], Node.mk "b" []], some [0], AppMode.tree, none⟩).selected = some [0] := by
  have h := (moveDownUp_spec ⟨[Node.mk "a" [], Node.mk "b" []], some [0], AppMode.tree, none⟩
      rfl).1 [] 0 [Node.mk "a" [], Node.mk "b" []] rfl rfl
  refine ⟨rfl, ?_, ?_⟩
  · have h2 := h.2.1
    simpa using h2
  · have h4 := h.2.2.2
    simpa using h4

theorem addChild_prevKey (app : App) : (addChild app).prevKey = app.prevKey := by
  cases hs : app.selected with
  | none => simp [addChild, hs]
  | some p =>
    cases hn : getNode app.tree p with
    | none => simp [addChild, hs, hn]
    | some n => simp [addChild, hs, hn]

theorem moveDown_prevKey (app : App) : (moveDown app).prevKey = app.prevKey := by
  cases hs : app.selected with
  | none => simp [moveDown, hs]
  | some sel =>
    by_cases hemp : sel.isEmpty = true
    · simp [moveDown, hs, hemp]
    · have hempf : sel.isEmpty = false := by simpa using hemp
      cases hpc : getParentChildren app.tree sel.dropLast with
      | none => simp [moveDown, hs, hempf, hpc]
      | some l =>
        cases hl : sel.getLast? with
        | none => simp [moveDown, hs, hempf, hpc, hl]
        | some ci =>
          by_cases hlt : ci < l.length - 1
          · simp [moveDown, hs, hempf, hpc, hl, hlt]
          · simp [moveDown, hs, hempf, hpc, hl, hlt]

theorem moveUp_prevKey (app : App) : (moveUp app).prevKey = app.prevKey := by
  cases hs : app.selected with
  | none => simp [moveUp, hs]
  | some sel =>
    cases hl : sel.getLast? with
    | none => simp [moveUp, hs, hl]
    | some ci =>
      by_cases hpos : ci > 0
      · simp [moveUp, hs, hl, hpos]
      · simp [moveUp, hs, hl, hpos]

theorem stepKey_char_ne_g (c : Char) (hc : c ≠ 'g') (app : App) :
    stepKey (.char c) app = stepKey (.char c) { app with prevKey := none } := by
  simp only [stepKey]
  split_ifs
  all_goals first | rfl | exact absurd ‹c = 'g'› hc

theorem stepKey_prevKey_none (k : KeyCode) (hk : k ≠ KeyCode.char 'g') (app : App) :
    (stepKey k app).prevKey = none := by
  cases k with
  | other => rfl
  | char c =>
    have hc : c ≠ 'g' := fun hcg => hk (by rw [hcg])
    simp only [stepKey]
    split_ifs
    all_goals
      first
      | rfl
      | rw [addChild_prevKey]
      | rw [moveDown_prevKey]
      | rw [moveUp_prevKey]
      | exact absurd ‹c = 'g'› hc

/-- C4 counterexample: with the chord armed, a press of the (other) key 'A'
does change the selection, so "a press of any other key after arming
performs no selection change" fails as stated. -/
theorem chord_other_key_counterexample :
    (stepKey (.char 'A')
        (⟨[], none, AppMode.tree, some (KeyCode.char 'g')⟩ : App)).selected
      ≠ (⟨[], none, AppMode.tree, some (KeyCode.char 'g')⟩ : App).selected := by
  decide

/-- C4 (amended): two consecutive presses of 'g' with at least one top-level
node select path `[0]`; a single press only arms the pending state and
changes no selection; a press of any key other than 'g' after arming does
not fire the chord — it behaves exactly as the same key from the unarmed
state (so a key with no binding changes no selection) — and the pending
state is cleared by every key press except a fresh arming press of 'g'. -/
theorem chord_spec_amended (app : App) :
    (app.prevKey = some (KeyCode.char 'g') → app.tree ≠ [] →
      (stepKey (.char 'g') app).selected = some [0] ∧
      (stepKey (.char 'g') app).prevKey = none) ∧
    (app.prevKey ≠ some (KeyCode.char 'g') →
      (stepKey (.char 'g') app).selected = app.selected ∧
      (stepKey (.char 'g') app).tree = app.tree ∧
      (stepKey (.char 'g') app).prevKey = some (KeyCode.char 'g')) ∧
    (∀ k, k ≠ KeyCode.char 'g' →
      stepKey k app = stepKey k { app with prevKey := none } ∧
      (stepKey k app).prevKey = none) := by
  refine ⟨?_, ?_, ?_⟩
  · intro hprev htree
    have hemp : app.tree.isEmpty = false := by simpa [List.isEmpty_iff] using htree
    constructor <;> simp [stepKey, hprev, hemp]
  · intro hprev
    refine ⟨?_, ?_, ?_⟩ <;> simp [stepKey, hprev]
  · intro k hk
    cases k with
    | other => exact ⟨rfl, rfl⟩
    | char c =>
      have hc : c ≠ 'g' := fun hcg => hk (by rw [hcg])
      exact ⟨stepKey_char_ne_g c hc app, stepKey_prevKey_none _ hk app⟩

/-- Witness for C4 (amended) on a one-node tree with the chord armed. -/
theorem chord_spec_amended_witness :
    (stepKey (.char 'g')
        (⟨[Node.mk "a" []], some [0], AppMode.tree, some (KeyCode.char 'g')⟩ : App)).selected
      = some [0] :=
  ((chord_spec_amended _).1 rfl (List.cons_ne_nil _ _)).1

/-- C5: `select_last_overall` ('G'): for every non-empty tree it sets the
selection to `lastPath`, which resolves to the node obtained by starting at
the last top-level node and repeatedly descending into the last child until
a childless node is reached; on an empty tree the state (and so the
selection) is unchanged apart from the taken pending key. -/
theorem selectLast_spec (app : App) :
    (∀ n, app.tree.getLast? = some n →
      (stepKey (.char 'G') app).selected = some (lastPath app.tree) ∧
      (stepKey (.char 'G') app).tree = app.tree ∧
      getNode app.tree (lastPath app.tree) = some (descendLastSpec n) ∧
      (descendLastSpec n).children = []) ∧
    (app.tree = [] → stepKey (.char 'G') app = { app with prevKey := none }) := by
  have hstep : stepKey (.char 'G') app
      = if (lastPath app.tree).isEmpty then { app with prevKey := none }
        else { app with prevKey := none, selected := some (lastPath app.tree) } := rfl
  constructor
  · intro n hn
    have htne : app.tree ≠ [] := by
      intro hnil
      rw [hnil] at hn
      simp at hn
    have hlne : lastPath app.tree ≠ [] := lastPath_ne_nil app.tree htne
    have hemp : (lastPath app.tree).isEmpty = false := by simpa [List.isEmpty_iff] using hlne
    rw [hstep, if_neg (by simp [hemp])]
    exact ⟨rfl, rfl, (getNode_lastPath app.tree n hn).1, (getNode_lastPath app.tree n hn).2⟩
  · intro hnil
    rw [hstep, hnil, lastPath_nil]
    rfl

/-- Witness for C5 on root=[X], X.children=[Y]: Y (path [0,0]) is selected,
not X. -/
theorem selectLast_spec_witness :
    (stepKey (.char 'G')
        (⟨[Node.mk "X" [Node.mk "Y" []]], none, AppMode.tree, none⟩ : App)).selected
      = some [0, 0] ∧
    getNode [Node.mk "X" [Node.mk "Y" []]] [0, 0] = some (Node.mk "Y" []) := by
  have h := (selectLast_spec ⟨[Node.mk "X" [Node.mk "Y" []]], none, AppMode.tree, none⟩).1
      (Node.mk "X" [Node.mk "Y" []]) rfl
  have hlp : lastPath [Node.mk "X" [Node.mk "Y" []]] = [0, 0] := by
    rw [lastPath.eq_def]
    simp
    rw [lastPath.eq_def]
    simp
    rw [lastPath.eq_def]
    simp
  exact ⟨by rw [h.1, hlp], rfl⟩

theorem buildTreeLines_nil (sel : Option (List Nat)) (path : List Nat) (i : Nat) :
    buildTreeLines sel [] path i = [] := by
  rw [buildTreeLines.eq_def]

theorem buildTreeLines_cons (sel : Option (List Nat)) (n : Node) (ns : List Node)
    (path : List Nat) (i : Nat) :
    buildTreeLines sel (n :: ns) path i
      = ((path.length, n.name,
            match sel with
            | some s => decide (s = path ++ [i])
            | none => false) ::
          (if n.children.isEmpty then []
           else buildTreeLines sel n.children (path ++ [i]) 0)) ++
        buildTreeLines sel ns path (i + 1) := by
  rw [buildTreeLines.eq_def]

theorem buildTreeLines_map_preorder :
    ∀ (sel : Option (List Nat)) (nodes : List Node) (path : List Nat) (i : Nat),
    (buildTreeLines sel nodes path i).map (fun e => (e.1, e.2.1))
      = preorderSpec nodes path.length
  | sel, [], path, i => by
    simp [buildTreeLines_nil, preorderSpec]
  | sel, n :: ns, path, i => by
    have ih1 := buildTreeLines_map_preorder sel n.children (path ++ [i]) 0
    have ih2 := buildTreeLines_map_preorder sel ns path (i + 1)
    rw [buildTreeLines_cons]
    by_cases hemp : n.children.isEmpty = true
    · have hcnil : n.children = [] := by simpa using hemp
      simp only [preorderSpec, hemp, if_true]
      simp only [List.map_append, List.map_cons, ih2, List.map_nil]
      rw [hcnil]
      simp [preorderSpec]
    · have hempf : n.children.isEmpty = false := by simpa using hemp
      simp only [preorderSpec, hempf, Bool.false_eq_true, if_false]
      simp only [List.map_cons, List.map_append, ih1, ih2]
      simp
termination_by sel nodes path i => sizeOf nodes
decreasing_by
  · have : sizeOf n.children < sizeOf n := by
      cases n with
      | mk nm cs => simp only [Node.children, Node.mk.sizeOf_spec]; omega
    simp only [List.cons.sizeOf_spec]
    omega
  · simp only [List.cons.sizeOf_spec]
    omega

/-- C6: the sequence of (depth, name) entries produced for rendering is
exactly the depth-first pre-order traversal of the whole tree, each node
before its children and children in sibling order, with depth equal to the
path length from the root; in particular A with children [B, C] yields
exactly A, B, C with depths 0, 1, 1. -/
theorem traverse_visible_preorder (sel : Option (List Nat)) (nodes : List Node) :
    (buildTreeLines sel nodes [] 0).map (fun e => (e.1, e.2.1))
      = preorderSpec nodes 0 ∧
    (buildTreeLines none [Node.mk "A" [Node.mk "B" [], Node.mk "C" []]] [] 0).map
        (fun e => (e.1, e.2.1))
      = [(0, "A"), (1, "B"), (1, "C")] := by
  constructor
  · simpa using buildTreeLines_map_preorder sel nodes [] 0
  · rw [buildTreeLines_map_preorder none [Node.mk "A" [Node.mk "B" [], Node.mk "C" []]] [] 0]
    simp [preorderSpec]

/-- C7 (spec-modelled, `add_sibling_of_selection` is absent from the
source): for every state where the selection sits at index `i` of sibling
group `l` under parent path `q`, add-sibling appends the new node at the
end of `l` — not immediately after index `i` — and selects it; with no
selection it appends a new top-level root and selects it. -/
theorem addSibling_spec (app : App) :
    (∀ q i l, app.selected = some (q ++ [i]) →
      getParentChildren app.tree q = some l →
      getParentChildren (addSibling app).tree q = some (l ++ [Node.new "new node"]) ∧
      (addSibling app).selected = some (q ++ [l.length]) ∧
      getNode (addSibling app).tree (q ++ [l.length]) = some (Node.new "new node")) ∧
    (app.selected = none →
      (addSibling app).tree = app.tree ++ [Node.new "new node"] ∧
      (addSibling app).selected = some [app.tree.length]) := by
  constructor
  · intro q i l hs hpc
    have hdl : (q ++ [i]).dropLast = q := List.dropLast_concat
    have hsel : (addSibling app).selected = some (q ++ [l.length]) := by
      simp [addSibling, hs, hdl, hpc]
    have htree0 : (addSibling app).tree
        = if q.isEmpty then app.tree ++ [Node.new "new node"]
          else modifyAt (fun m => Node.mk m.name (m.children ++ [Node.new "new node"]))
            q app.tree := by
      simp [addSibling, hs, hdl, hpc]
    rcases q with _ | ⟨a, q'⟩
    · simp only [getParentChildren, Option.some.injEq] at hpc
      subst hpc
      have htree : (addSibling app).tree = app.tree ++ [Node.new "new node"] := by
        simpa using htree0
      refine ⟨?_, hsel, ?_⟩
      · rw [htree]
        rfl
      · rw [htree]
        simp only [List.nil_append, getNode]
        exact List.getElem?_concat_length _ _
    · have hqne : (a :: q') ≠ [] := List.cons_ne_nil _ _
      rw [getParentChildren_map_children _ app.tree hqne] at hpc
      cases hgp : getNode app.tree (a :: q') with
      | none =>
        rw [hgp] at hpc
        exact Option.noConfusion hpc
      | some P =>
        rw [hgp] at hpc
        have hl : P.children = l := Option.some.inj hpc
        have htree : (addSibling app).tree
            = modifyAt (fun m => Node.mk m.name (m.children ++ [Node.new "new node"]))
                (a :: q') app.tree := by
          simpa using htree0
        refine ⟨?_, hsel, ?_⟩
        · rw [htree, getParentChildren_modifyAt _ _ app.tree P hgp]
          rw [show (Node.mk P.name (P.children ++ [Node.new "new node"])).children
              = P.children ++ [Node.new "new node"] from rfl, hl]
        · rw [htree, getNode_concat, getParentChildren_modifyAt _ _ app.tree P hgp]
          rw [show (Node.mk P.name (P.children ++ [Node.new "new node"])).children
              = P.children ++ [Node.new "new node"] from rfl, hl]
          simp [List.getElem?_concat_length]
  · intro hs
    exact ⟨by simp [addSibling, hs], by simp [addSibling, hs]⟩

/-- Witness for C7: P has children [A, B], A (path [0,0]) is selected;
adding a sibling yields [A, B, C] with C (path [0,2]) selected. -/
theorem addSibling_spec_witness :
    (addSibling ⟨[Node.mk "P" [Node.mk "A" [], Node.mk "B" []]], some [0, 0],
        AppMode.tree, none⟩).selected = some [0, 2] ∧
    getParentChildren
        (addSibling ⟨[Node.mk "P" [Node.mk "A" [], Node.mk "B" []]], some [0, 0],
            AppMode.tree, none⟩).tree [0]
      = some [Node.mk "A" [], Node.mk "B" [], Node.new "new node"] := by
  have h := (addSibling_spec ⟨[Node.mk "P" [Node.mk "A" [], Node.mk "B" []]], some [0, 0],
      AppMode.tree, none⟩).1 [0] 0 [Node.mk "A" [], Node.mk "B" []] rfl rfl
  exact ⟨h.2.1, by rw [h.1]; rfl⟩

theorem moveDown_tree (app : App) : (moveDown app).tree = app.tree := by
  cases hs : app.selected with
  | none => simp [moveDown, hs]
  | some sel =>
    by_cases hemp : sel.isEmpty = true
    · simp [moveDown, hs, hemp]
    · have hempf : sel.isEmpty = false := by simpa using hemp
      cases hpc : getParentChildren app.tree sel.dropLast with
      | none => simp [moveDown, hs, hempf, hpc]
      | some l =>
        cases hl : sel.getLast? with
        | none => simp [moveDown, hs, hempf, hpc, hl]
        | some ci =>
          by_cases hlt : ci < l.length - 1
          · simp [moveDown, hs, hempf, hpc, hl, hlt]
          · simp [moveDown, hs, hempf, hpc, hl, hlt]

theorem moveUp_tree (app : App) : (moveUp app).tree = app.tree := by
  cases hs : app.selected with
  | none => simp [moveUp, hs]
  | some sel =>
    cases hl : sel.getLast? with
    | none => simp [moveUp, hs, hl]
    | some ci =>
      by_cases hpos : ci > 0
      · simp [moveUp, hs, hl, hpos]
      · simp [moveUp, hs, hl, hpos]

theorem growsB_addChild (app : App) : growsB app.tree (addChild app).tree = true := by
  cases hs : app.selected with
  | none =>
    have htree : (addChild app).tree = app.tree ++ [Node.new "new node"] := by
      simp [addChild, hs]
    rw [htree]
    exact growsB_concat _ _
  | some p =>
    cases hn : getNode app.tree p with
    | none =>
      have htree : (addChild app).tree = app.tree := by simp [addChild, hs, hn]
      rw [htree]
      exact growsB_refl _
    | some n =>
      have htree : (addChild app).tree
          = modifyAt (fun m => Node.mk m.name (m.children ++ [Node.new "new node"]))
              p app.tree := by
        simp [addChild, hs, hn]
      rw [htree]
      apply growsB_modifyAt
      intro m
      exact ⟨rfl, growsB_concat _ _⟩

/-- C8: sibling order is insertion order: after any key command, every node
present before is still present at the same position with the same name —
the root list and every children list keep their relative order and only
ever grow at the end, and no existing node is renamed or removed (this is
what `growsB` states). -/
theorem sibling_order_preserved (app : App) (k : KeyCode) :
    growsB app.tree (stepKey k app).tree = true := by
  cases k with
  | other => exact growsB_refl app.tree
  | char c =>
    simp only [stepKey]
    split_ifs
    · exact growsB_refl _
    · exact growsB_addChild { app with prevKey := none }
    · rw [moveDown_tree]
      exact growsB_refl _
    · rw [moveUp_tree]
      exact growsB_refl _
    · exact growsB_refl _
    · exact growsB_refl _
    · exact growsB_refl _
    · exact growsB_refl _
    · exact growsB_refl _
    · exact growsB_refl _

theorem lastPathChecked_eq (nodes : List Node) :
    lastPathChecked nodes = some (lastPath nodes) := by
  generalize hm : sizeOf nodes = N
  induction N using Nat.strong_induction_on generalizing nodes with
  | _ N ih =>
    rw [lastPathChecked.eq_def]
    by_cases hemp : nodes.isEmpty = true
    · have hnil : nodes = [] := by simpa using hemp
      subst hnil
      rw [lastPath_nil]
      simp
    · have hempf : nodes.isEmpty = false := by simpa using hemp
      have hne : nodes ≠ [] := by simpa using hempf
      have hlen : 1 ≤ nodes.length := List.length_pos.mpr hne
      have hcs : checkedSub nodes.length 1 = some (nodes.length - 1) := by
        unfold checkedSub
        rw [if_pos hlen]
      cases hg : nodes.getLast? with
      | none => exact absurd (List.getLast?_eq_none_iff.mp hg) hne
      | some n =>
        have hidx : nodes[nodes.length - 1]? = some n := by
          rw [← List.getLast?_eq_getElem?]
          exact hg
        have hsz : sizeOf n.children < N := by
          obtain ⟨hne2, heq2⟩ :=
            List.mem_getLast?_eq_getLast (show n ∈ nodes.getLast? from hg)
          have hs1 : sizeOf n < sizeOf nodes := by
            have hmem := List.getLast_mem hne2
            rw [← heq2] at hmem
            exact List.sizeOf_lt_of_mem hmem
          have hs2 : sizeOf n.children < sizeOf n := by
            cases n with
            | mk nm cs => simp only [Node.children, Node.mk.sizeOf_spec]; omega
          omega
        rw [lastPath_eq nodes n hg]
        simp only [hempf, Bool.false_eq_true, if_false, hcs]
        split
        · rename_i heq
          rw [hidx] at heq
          exact Option.noConfusion heq
        · rename_i m heq
          rw [hidx] at heq
          injection heq with hmn
          subst hmn
          rw [ih (sizeOf n.children) hsz n.children rfl]
          rfl

theorem addChildChecked_eq (app : App) : addChildChecked app = some (addChild app) := by
  cases hs : app.selected with
  | none => simp [addChildChecked, addChild, hs, checkedSub]
  | some p =>
    cases hn : getNode app.tree p with
    | none => simp [addChildChecked, addChild, hs, hn]
    | some n => simp [addChildChecked, addChild, hs, hn, checkedSub]

theorem moveDownChecked_eq (app : App) (h : validSelB app = true) :
    moveDownChecked app = some (moveDown app) := by
  cases hs : app.selected with
  | none => simp [moveDownChecked, moveDown, hs]
  | some sel =>
    obtain ⟨hne, hsome⟩ := validSelB_some app sel h hs
    have hempf : sel.isEmpty = false := by simpa using hne
    cases hpc : getParentChildren app.tree sel.dropLast with
    | none => simp [moveDownChecked, moveDown, hs, hempf, hpc]
    | some l =>
      cases hl : sel.getLast? with
      | none => exact absurd (List.getLast?_eq_none_iff.mp hl) hne
      | some ci =>
        have hsplit : sel.dropLast ++ [ci] = sel := List.dropLast_append_getLast? ci hl
        rw [← hsplit, getNode_concat, hpc] at hsome
        simp only [Option.some_bind] at hsome
        have hlen : 1 ≤ l.length := by
          cases hx : l[ci]? with
          | none =>
            rw [hx] at hsome
            simp at hsome
          | some nd =>
            have := (List.getElem?_eq_some_iff.mp hx).1
            omega
        have hcs : checkedSub l.length 1 = some (l.length - 1) := by
          unfold checkedSub
          rw [if_pos hlen]
        by_cases hlt : ci < l.length - 1
        · simp [moveDownChecked, moveDown, hs, hempf, hpc, hl, hcs, hlt]
        · simp [moveDownChecked, moveDown, hs, hempf, hpc, hl, hcs, hlt]

theorem moveUpChecked_eq (app : App) (h : validSelB app = true) :
    moveUpChecked app = some (moveUp app) := by
  cases hs : app.selected with
  | none => simp [moveUpChecked, moveUp, hs]
  | some sel =>
    obtain ⟨hne, _⟩ := validSelB_some app sel h hs
    have hempf : sel.isEmpty = false := by simpa using hne
    cases hl : sel.getLast? with
    | none => exact absurd (List.getLast?_eq_none_iff.mp hl) hne
    | some ci =>
      by_cases hpos : ci > 0
      · have hcs : checkedSub ci 1 = some (ci - 1) := by
          unfold checkedSub
          rw [if_pos (by omega)]
        simp [moveUpChecked, moveUp, hs, hempf, hl, hpos, hcs]
      · simp [moveUpChecked, moveUp, hs, hempf, hl, hpos]

theorem stepKeyChecked_eq (k : KeyCode) (app : App) (h : validSelB app = true) :
    stepKeyChecked k app = some (stepKey k app) := by
  cases k with
  | other => rfl
  | char c =>
    simp only [stepKey, stepKeyChecked]
    split_ifs with h1 h2 h3 h4 h5 h6 h7 h8 h9
    · rfl
    · exact addChildChecked_eq { app with prevKey := none }
    · exact moveDownChecked_eq { app with prevKey := none } h
    · exact moveUpChecked_eq { app with prevKey := none } h
    · rfl
    · rfl
    · rfl
    · rw [lastPathChecked_eq]
      simp [h9]
    · rw [lastPathChecked_eq]
      simp [h9]
    · rfl

/-- C9: totality under the reachable-state precondition (the selection,
when present, resolves): processing any key never panics — the `unwrap`s,
the `parent_nodes.len() - 1` subtraction and the `'G'` descent indexing all
succeed (`stepKeyChecked` returns `some` and agrees with `stepKey`) — and
the boundary inputs (no selection for 'j'/'k', empty tree for 'G') leave
tree and selection unchanged as silent no-ops. -/
theorem step_total (app : App) (h : validSelB app = true) :
    (∀ k, stepKeyChecked k app = some (stepKey k app)) ∧
    (app.selected = none →
      (stepKey (.char 'j') app).tree = app.tree ∧
      (stepKey (.char 'j') app).selected = none ∧
      (stepKey (.char 'k') app).tree = app.tree ∧
      (stepKey (.char 'k') app).selected = none) ∧
    (app.tree = [] →
      (stepKey (.char 'G') app).selected = app.selected ∧
      (stepKey (.char 'G') app).tree = app.tree) := by
  refine ⟨fun k => stepKeyChecked_eq k app h, ?_, ?_⟩
  · intro hs
    rw [stepKey_char_j, stepKey_char_k]
    have hj : moveDown { app with prevKey := none } = { app with prevKey := none } := by
      simp [moveDown, hs]
    have hk : moveUp { app with prevKey := none } = { app with prevKey := none } := by
      simp [moveUp, hs]
    rw [hj, hk]
    exact ⟨rfl, hs, rfl, hs⟩
  · intro hnil
    have hG : stepKey (.char 'G') app
        = if (lastPath app.tree).isEmpty then { app with prevKey := none }
          else { app with prevKey := none, selected := some (lastPath app.tree) } := rfl
    rw [hG, hnil, lastPath_nil]
    exact ⟨rfl, rfl⟩

/-- Witness for C9 at a valid one-node state; in particular the 'j' press is
checked-total there. -/
theorem step_total_witness :
    validSelB (⟨[Node.mk "a" []], some [0], AppMode.tree, none⟩ : App) = true ∧
    stepKeyChecked (.char 'j') (⟨[Node.mk "a" []], some [0], AppMode.tree, none⟩ : App)
      = some (stepKey (.char 'j') (⟨[Node.mk "a" []], some [0], AppMode.tree, none⟩ : App)) :=
  ⟨rfl, (step_total ⟨[Node.mk "a" []], some [0], AppMode.tree, none⟩ rfl).1 (.char 'j')⟩

theorem addChild_selected_isSome (app : App) : (addChild app).selected.isSome = true := by
  cases hs : app.selected with
  | none => simp [addChild, hs]
  | some p =>
    cases hn : getNode app.tree p with
    | none => simp [addChild, hs, hn]
    | some n => simp [addChild, hs, hn]

theorem moveDown_selected_isSome (app : App) :
    (moveDown app).selected.isSome = app.selected.isSome := by
  cases hs : app.selected with
  | none => simp [moveDown, hs]
  | some sel =>
    by_cases hemp : sel.isEmpty = true
    · simp [moveDown, hs, hemp]
    · have hempf : sel.isEmpty = false := by simpa using hemp
      cases hpc : getParentChildren app.tree sel.dropLast with
      | none => simp [moveDown, hs, hempf, hpc]
      | some l =>
        cases hl : sel.getLast? with
        | none => simp [moveDown, hs, hempf, hpc, hl]
        | some ci =>
          by_cases hlt : ci < l.length - 1
          · simp [moveDown, hs, hempf, hpc, hl, hlt]
          · simp [moveDown, hs, hempf, hpc, hl, hlt]

theorem moveUp_selected_isSome (app : App) :
    (moveUp app).selected.isSome = app.selected.isSome := by
  cases hs : app.selected with
  | none => simp [moveUp, hs]
  | some sel =>
    cases hl : sel.getLast? with
    | none => simp [moveUp, hs, hl]
    | some ci =>
      by_cases hpos : ci > 0
      · simp [moveUp, hs, hl, hpos]
      · simp [moveUp, hs, hl, hpos]

theorem stepKey_selected_isSome (k : KeyCode) (a : App)
    (h : a.selected.isSome = true) : (stepKey k a).selected.isSome = true := by
  cases k with
  | other => exact h
  | char c =>
    simp only [stepKey]
    split_ifs
    · exact h
    · exact addChild_selected_isSome { a with prevKey := none }
    · rw [moveDown_selected_isSome]
      exact h
    · rw [moveUp_selected_isSome]
      exact h
    · exact h
    · rfl
    · exact h
    · exact h
    · rfl
    · exact h

/-- C10 (implicit): in every reachable state, if the tree has at least one
node then the selection is `some`; the selection is `none` only with the
empty tree, because no key command ever clears an existing selection and
add-child always sets one. -/
theorem selection_some_invariant (app : App) (h : Reachable app) :
    (app.tree ≠ [] → app.selected.isSome = true) ∧
    (∀ a k, a.selected.isSome = true → (stepKey k a).selected.isSome = true) ∧
    (∀ a, (stepKey (.char 'A') a).selected.isSome = true) := by
  refine ⟨?_, fun a k => stepKey_selected_isSome k a,
    fun a => by rw [stepKey_char_A]; exact addChild_selected_isSome _⟩
  induction h with
  | init => exact fun hne => absurd rfl hne
  | step hr k ih =>
    rename_i a
    cases k with
    | other => exact ih
    | char c =>
      simp only [stepKey]
      split_ifs with h1 h2 h3 h4 h5 h6 h7 h8 h9
      · exact ih
      · exact fun _ => addChild_selected_isSome { a with prevKey := none }
      · intro hne
        rw [moveDown_tree] at hne
        rw [moveDown_selected_isSome]
        exact ih hne
      · intro hne
        rw [moveUp_tree] at hne
        rw [moveUp_selected_isSome]
        exact ih hne
      · exact ih
      · exact fun _ => rfl
      · exact ih
      · exact ih
      · exact fun _ => rfl
      · exact ih

/-- Witness for C10 at the reachable state after one add-child press. -/
theorem selection_some_invariant_witness :
    (stepKey (.char 'A') App.init).selected.isSome = true :=
  (selection_some_invariant (stepKey (.char 'A') App.init)
      (Reachable.step Reachable.init _)).1 (List.cons_ne_nil _ _)
